import Mathlib

/-!
Verification of the hint-code generator and geometry helpers of wmfocus
(src/utils.rs), shallowly embedded in Lean.

Strings are modelled as lists of characters, machine integers as `Nat`
(the program's reachable values never overflow in the cases of interest),
and the `used` set of already-assigned hints as a list of strings.
-/

namespace WmFocus

/-- Horizontal alignment enum (src/utils.rs lines 16-20). -/
inductive HorizontalAlign
  | Left
  | Center
  | Right
  deriving DecidableEq

/-- Vertical alignment enum (src/utils.rs lines 36-40). -/
inductive VerticalAlign
  | Top
  | Center
  | Bottom
  deriving DecidableEq

/-- Embedding of `contains` (src/utils.rs lines 58-63). Rectangles are tuples
`(x, y, width, height)`; the Rust field `t.0` is `t.1` here, `t.1` is `t.2.1`,
`t.2` is `t.2.2.1` and `t.3` is `t.2.2.2`. Line 60 of the source compares
`rect.1` (a y-coordinate) against `container.0` (the container's x-origin),
and that comparison is reproduced verbatim. -/
def contains (container rect : Nat × Nat × Nat × Nat) : Bool :=
  decide (rect.1 ≥ container.1)
    && decide (rect.2.1 ≥ container.1)
    && decide (rect.1 + rect.2.2.1 ≤ container.1 + container.2.2.1)
    && decide (rect.2.1 + rect.2.2.2 ≤ container.2.1 + container.2.2.2)

/-- The standard inclusive rectangle-containment predicate exactly as the spec
states it (§4.2), kept as a separate definition so it can be compared with the
source's `contains`. -/
def containsSpec (container rect : Nat × Nat × Nat × Nat) : Bool :=
  decide (rect.1 ≥ container.1)
    && decide (rect.2.1 ≥ container.2.1)
    && decide (rect.1 + rect.2.2.1 ≤ container.1 + container.2.2.1)
    && decide (rect.2.1 + rect.2.2.2 ≤ container.2.1 + container.2.2.2)

/-- The `while hint_chars.len().pow(size_required) < max_count` loop of
`get_next_hint` (src/utils.rs lines 214-217), as a fuel-indexed recursion:
`a` is the alphabet length, `n` is `max_count`, the second `Nat` argument is
the current value of `size_required`. `none` models exhaustion of the fuel;
the lemmas below show `none` arises (for the fuel used in `sizeRequired`)
exactly when the source loop never terminates. -/
def sizeLoop (a n : Nat) : Nat → Nat → Option Nat
  | 0, _ => none
  | fuel + 1, s => if a ^ s < n then sizeLoop a n fuel (s + 1) else some s

/-- The value of `size_required` after the first loop of `get_next_hint`
(src/utils.rs lines 214-217), starting from `size_required = 1`. Fuel `n + 1`
is sufficient whenever the loop terminates at all (`sizeRequired_eq_some`),
and in the divergent cases no amount of fuel yields a value
(`sizeLoop_eq_none_of_forall_lt`). -/
def sizeRequired (a n : Nat) : Option Nat :=
  sizeLoop a n (n + 1) 1

/-- The enumeration order of `itertools`' `multi_cartesian_product` (used at
src/utils.rs lines 223-225): the first factor varies slowest, and within each
factor the elements appear in the factor's own order. -/
def multiCartesianProduct {α : Type} : List (List α) → List (List α)
  | [] => [[]]
  | l :: ls => l.flatMap (fun x => (multiCartesianProduct ls).map (fun xs => x :: xs))

/-- The possible behaviours of one call to `get_next_hint`: returning a string,
hitting the explicit `expect("No hint_chars found")` failure (src/utils.rs
line 221), or non-termination of the length loop. -/
inductive HintOutcome
  | value : List Char → HintOutcome
  | panicked : HintOutcome
  | diverge : HintOutcome
  deriving DecidableEq

/-- Embedding of `get_next_hint` (src/utils.rs lines 212-234). `currentHints`
is the `used` set of already-assigned codes, `hintChars` the alphabet and
`maxCount` the `max_count` argument. The candidate enumeration is
`size_required` copies of the reversed alphabet fed to the multi cartesian
product, and the loop keeps overwriting `ret` with every candidate not in
`currentHints`, so the last unused candidate wins. -/
def getNextHint (currentHints : List (List Char)) (hintChars : List Char)
    (maxCount : Nat) : HintOutcome :=
  match sizeRequired hintChars.length maxCount with
  | none => HintOutcome.diverge
  | some sizeReq =>
    match hintChars.head? with
    | none => HintOutcome.panicked
    | some c =>
      let combos := multiCartesianProduct (List.replicate sizeReq hintChars.reverse)
      HintOutcome.value
        (combos.foldl (fun ret folded => if folded ∈ currentHints then ret else folded) [c])

/-- The sequential batch protocol of the spec (§4.1, §8): starting from an
empty `used` set, call `get_next_hint` repeatedly with the same alphabet and
`max_count`, inserting each returned code into `used` before the next call.
`none` records a call that did not return a value. -/
def runBatch (hintChars : List Char) (maxCount : Nat) : Nat → Option (List (List Char))
  | 0 => some []
  | k + 1 =>
    match runBatch hintChars maxCount k with
    | none => none
    | some used =>
      match getNextHint used hintChars maxCount with
      | HintOutcome.value s => some (s :: used)
      | _ => none

/-- The alignment selection of `parse_args` (src/utils.rs lines 184-192):
when the `fill` flag is present both alignments are forced to `Center`,
otherwise the parsed alignment values are used. -/
def resolveAlignment (fill : Bool) (halign : HorizontalAlign) (valign : VerticalAlign) :
    HorizontalAlign × VerticalAlign :=
  if fill then (HorizontalAlign.Center, VerticalAlign.Center) else (halign, valign)

/-- The `conflicts_with_all` list declared on the `fill` argument
(src/utils.rs line 161): the clap options that may not be combined with
`--fill`. -/
def fillConflictsWith : List String :=
  ["horizontal_align", "vertical_align", "margin"]

/-! ### Lemmas about the length loop -/

theorem sizeLoop_eq_none_of_forall_lt {a n : Nat} (h : ∀ s, 1 ≤ s → a ^ s < n) :
    ∀ fuel s, 1 ≤ s → sizeLoop a n fuel s = none := by
  intro fuel
  induction fuel with
  | zero => intro s _; rfl
  | succ f ih =>
    intro s hs
    simp only [sizeLoop, if_pos (h s hs)]
    exact ih (s + 1) (Nat.le_succ_of_le hs)

theorem sizeLoop_sound {a n : Nat} :
    ∀ fuel s L, sizeLoop a n fuel s = some L →
      s ≤ L ∧ n ≤ a ^ L ∧ ∀ K, s ≤ K → K < L → a ^ K < n := by
  intro fuel
  induction fuel with
  | zero => intro s L h; exact absurd h (by simp [sizeLoop])
  | succ f ih =>
    intro s L h
    simp only [sizeLoop] at h
    by_cases hlt : a ^ s < n
    · rw [if_pos hlt] at h
      obtain ⟨h1, h2, h3⟩ := ih (s + 1) L h
      refine ⟨Nat.le_of_succ_le h1, h2, ?_⟩
      intro K hsK hKL
      rcases Nat.eq_or_lt_of_le hsK with heq | hlt2
      · rwa [← heq]
      · exact h3 K hlt2 hKL
    · rw [if_neg hlt] at h
      obtain rfl : s = L := Option.some.inj h
      exact ⟨Nat.le_refl s, Nat.le_of_not_lt hlt, fun K h1 h2 => absurd h1 (Nat.not_le_of_lt h2)⟩

theorem sizeLoop_some_of_le_pow {a n t : Nat} (ht : n ≤ a ^ t) :
    ∀ fuel s, s ≤ t → t < s + fuel → ∃ L, sizeLoop a n fuel s = some L := by
  intro fuel
  induction fuel with
  | zero => intro s hst hfuel; exact absurd hfuel (Nat.not_lt_of_le (by simpa using hst))
  | succ f ih =>
    intro s hst hfuel
    by_cases hlt : a ^ s < n
    · have hne : s ≠ t := by
        intro heq; rw [heq] at hlt; exact Nat.not_le_of_lt hlt ht
      have hst2 : s + 1 ≤ t := Nat.succ_le_of_lt (Nat.lt_of_le_of_ne hst hne)
      obtain ⟨L, hL⟩ := ih (s + 1) hst2 (by omega)
      exact ⟨L, by simp only [sizeLoop, if_pos hlt]; exact hL⟩
    · exact ⟨s, by simp only [sizeLoop, if_neg hlt]⟩

theorem sizeRequired_eq_some {a n : Nat} (h : 2 ≤ a ∨ n ≤ a) :
    ∃ L, sizeRequired a n = some L := by
  unfold sizeRequired
  by_cases hna : n ≤ a
  · exact sizeLoop_some_of_le_pow (t := 1) (by simpa using hna) (n + 1) 1
      (Nat.le_refl 1) (by omega)
  · rcases h with h2 | h3
    · have hn1 : 1 ≤ n := by omega
      have ht : n ≤ a ^ n :=
        Nat.le_of_lt (Nat.lt_of_lt_of_le (Nat.lt_two_pow n) (Nat.pow_le_pow_left h2 n))
      exact sizeLoop_some_of_le_pow ht (n + 1) 1 hn1 (by omega)
    · exact absurd h3 hna

theorem sizeRequired_sound {a n L : Nat} (h : sizeRequired a n = some L) :
    1 ≤ L ∧ n ≤ a ^ L ∧ ∀ K, 1 ≤ K → n ≤ a ^ K → L ≤ K := by
  obtain ⟨h1, h2, h3⟩ := sizeLoop_sound (n + 1) 1 L h
  refine ⟨h1, h2, ?_⟩
  intro K hK1 hKn
  by_contra hLK
  exact Nat.not_le_of_lt (h3 K hK1 (Nat.lt_of_not_le hLK)) hKn

theorem sizeRequired_empty_alphabet {n : Nat} (hn : 1 ≤ n) :
    sizeRequired 0 n = none := by
  refine sizeLoop_eq_none_of_forall_lt ?_ (n + 1) 1 (Nat.le_refl 1)
  intro s hs
  rw [Nat.zero_pow (by omega)]
  exact hn

theorem sizeRequired_unary_alphabet {a n : Nat} (ha : a ≤ 1) (hn : 2 ≤ n) :
    sizeRequired a n = none := by
  refine sizeLoop_eq_none_of_forall_lt ?_ (n + 1) 1 (Nat.le_refl 1)
  intro s hs
  calc a ^ s ≤ 1 ^ s := Nat.pow_le_pow_left ha s
    _ = 1 := Nat.one_pow s
    _ < n := by omega

/-! ### Lemmas about the candidate enumeration -/

theorem mem_multiCartesianProduct_replicate {α : Type} {l : List α} :
    ∀ {k : Nat} {x : List α},
      x ∈ multiCartesianProduct (List.replicate k l) ↔ x.length = k ∧ ∀ c ∈ x, c ∈ l := by
  intro k
  induction k with
  | zero =>
    intro x
    constructor
    · intro hx
      rw [List.mem_singleton.mp hx]
      exact ⟨rfl, fun c hc => absurd hc (List.not_mem_nil c)⟩
    · rintro ⟨hlen, -⟩
      rw [List.length_eq_zero.mp hlen]
      exact List.mem_singleton.mpr rfl
  | succ m ih =>
    intro x
    rw [List.replicate_succ]
    simp only [multiCartesianProduct, List.mem_flatMap, List.mem_map]
    constructor
    · rintro ⟨c, hc, xs, hxs, rfl⟩
      obtain ⟨hlen, hall⟩ := ih.mp hxs
      refine ⟨by simp [hlen], ?_⟩
      intro d hd
      rcases List.mem_cons.mp hd with rfl | hd2
      · exact hc
      · exact hall d hd2
    · rintro ⟨hlen, hall⟩
      cases x with
      | nil => exact absurd hlen (by simp)
      | cons c xs =>
        refine ⟨c, hall c (List.mem_cons_self c xs), xs,
          ih.mpr ⟨by simpa using hlen, fun d hd => hall d (List.mem_cons_of_mem c hd)⟩, rfl⟩

theorem length_flatMap_const {α β : Type} :
    ∀ (l : List α) (f : α → List β) (M : Nat), (∀ c ∈ l, (f c).length = M) →
      (l.flatMap f).length = l.length * M := by
  intro l
  induction l with
  | nil => intro f M _; simp
  | cons c t ih =>
    intro f M h
    rw [List.flatMap_cons, List.length_append, h c (List.mem_cons_self c t),
      ih f M (fun d hd => h d (List.mem_cons_of_mem c hd)), List.length_cons]
    ring

theorem length_multiCartesianProduct_replicate {α : Type} (l : List α) :
    ∀ k, (multiCartesianProduct (List.replicate k l)).length = l.length ^ k := by
  intro k
  induction k with
  | zero => rfl
  | succ m ih =>
    rw [List.replicate_succ]
    simp only [multiCartesianProduct]
    rw [length_flatMap_const l _ (multiCartesianProduct (List.replicate m l)).length
      (fun c _ => by simp), ih, Nat.pow_succ, Nat.mul_comm]

theorem nodup_multiCartesianProduct_replicate {α : Type} {l : List α} (hl : l.Nodup) :
    ∀ k, (multiCartesianProduct (List.replicate k l)).Nodup := by
  intro k
  induction k with
  | zero => simp [multiCartesianProduct]
  | succ m ih =>
    rw [List.replicate_succ]
    simp only [multiCartesianProduct]
    rw [List.nodup_flatMap]
    constructor
    · intro x _
      refine List.Nodup.map ?_ ih
      intro a b hab
      injection hab
    · refine List.Pairwise.imp ?_ hl
      intro a b hab z hza hzb
      obtain ⟨xs, -, rfl⟩ := List.mem_map.mp hza
      obtain ⟨ys, -, h2⟩ := List.mem_map.mp hzb
      injection h2 with h3 h4
      exact hab h3.symm

theorem multiCartesianProduct_replicate_ne_nil {α : Type} {l : List α} (hl : l ≠ [])
    (k : Nat) : multiCartesianProduct (List.replicate k l) ≠ [] := by
  intro h0
  have hlen := length_multiCartesianProduct_replicate l k
  rw [h0] at hlen
  have hpos : 0 < l.length ^ k := Nat.pow_pos (List.length_pos.mpr hl)
  rw [← hlen] at hpos
  exact Nat.lt_irrefl 0 hpos

theorem getLast?_flatMap {α β : Type} (f : α → List β) :
    ∀ (l : List α) (hl : l ≠ []), f (l.getLast hl) ≠ [] →
      (l.flatMap f).getLast? = (f (l.getLast hl)).getLast? := by
  intro l
  induction l with
  | nil => intro hl; exact absurd rfl hl
  | cons x t ih =>
    intro hl hf
    cases t with
    | nil => simp
    | cons y t2 =>
      have ht : y :: t2 ≠ [] := List.cons_ne_nil y t2
      have hlast : (x :: y :: t2).getLast hl = (y :: t2).getLast ht := List.getLast_cons ht
      rw [hlast] at hf
      have hne : (y :: t2).flatMap f ≠ [] := by
        obtain ⟨e, he⟩ := List.exists_mem_of_ne_nil _ hf
        exact List.ne_nil_of_mem
          (List.mem_flatMap.mpr ⟨(y :: t2).getLast ht, List.getLast_mem ht, he⟩)
      rw [List.flatMap_cons, List.getLast?_append_of_ne_nil _ hne, hlast]
      exact ih ht hf

theorem getLast?_multiCartesianProduct_replicate {α : Type} (l : List α) (hl : l ≠ []) :
    ∀ k, (multiCartesianProduct (List.replicate k l)).getLast? =
      some (List.replicate k (l.getLast hl)) := by
  intro k
  induction k with
  | zero => rfl
  | succ m ih =>
    rw [List.replicate_succ]
    simp only [multiCartesianProduct]
    have hfx : (multiCartesianProduct (List.replicate m l)).map
        (fun xs => l.getLast hl :: xs) ≠ [] := by
      simpa using multiCartesianProduct_replicate_ne_nil hl m
    rw [getLast?_flatMap (fun x => (multiCartesianProduct (List.replicate m l)).map
      (fun xs => x :: xs)) l hl hfx]
    rw [List.getLast?_map, ih, List.replicate_succ]
    rfl

/-! ### Claims about the geometry predicate and the fill flag -/

/-- C5: the spec claims `contains` implements the standard inclusive
containment formula (rect.y compared against container.y). The source instead
compares `rect.1` against `container.0` (src/utils.rs line 60), so on a
container whose x- and y-origins differ the two disagree: for container
`(5, 0, 10, 10)` and rect `(5, 2, 1, 1)` the rect is geometrically inside
the container (`containsSpec` is true) but `contains` returns false. -/
theorem contains_axis_mixup :
    contains (5, 0, 10, 10) (5, 2, 1, 1) = false ∧
      containsSpec (5, 0, 10, 10) (5, 2, 1, 1) = true := by
  decide

/-- C8: the three concrete containment vectors of spec §8, evaluated on the
source's `contains`: all three use container `(0, 0, 100, 50)`, whose x- and
y-origins coincide, so the source's axis mix-up is invisible and the claimed
results hold. -/
theorem contains_concrete_vectors :
    contains (0, 0, 100, 50) (10, 10, 50, 20) = true ∧
      contains (0, 0, 100, 50) (10, 10, 95, 20) = false ∧
      contains (0, 0, 100, 50) (0, 0, 100, 50) = true := by
  decide

/-- C9: when the fill flag is selected, the resulting configuration has
horizontal alignment Center and vertical alignment Center regardless of the
parsed alignment values, and the `fill` argument is declared mutually
exclusive with the explicit alignment and margin options. -/
theorem fill_forces_center (h : HorizontalAlign) (v : VerticalAlign) :
    resolveAlignment true h v = (HorizontalAlign.Center, VerticalAlign.Center) ∧
      "horizontal_align" ∈ fillConflictsWith ∧
      "vertical_align" ∈ fillConflictsWith ∧
      "margin" ∈ fillConflictsWith := by
  refine ⟨rfl, ?_, ?_, ?_⟩ <;> simp [fillConflictsWith]

/-! ### Claims about the length loop -/

/-- C2 (counterexample): for the one-character alphabet and `max_count = 2`
the loop of `get_next_hint` computes no length at all — there is no `L` with
`1 ^ L ≥ 2`, and the loop never exits (`sizeRequired_unary_alphabet` shows
this for every fuel) — so the claim that the computed length is the minimal
such `L` fails at alphabet size 1, `max_count` 2. -/
theorem sizeRequired_not_minimal_at_one_two :
    ¬ ∃ L, sizeRequired 1 2 = some L ∧ 2 ≤ 1 ^ L := by
  rintro ⟨L, hL, -⟩
  rw [sizeRequired_unary_alphabet (Nat.le_refl 1) (Nat.le_refl 2)] at hL
  exact Option.noConfusion hL

/-- C2 (amended): whenever a length with `|alphabet|^L ≥ max_count` exists at
all — that is, when the alphabet has at least two characters or already
`max_count ≤ |alphabet|` — the first loop of `get_next_hint` terminates and
`size_required` is the smallest positive `L` with `a ^ L ≥ n`. -/
theorem sizeRequired_minimal (a n : Nat) (h : 2 ≤ a ∨ n ≤ a) :
    ∃ L, sizeRequired a n = some L ∧ 1 ≤ L ∧ n ≤ a ^ L ∧
      ∀ K, 1 ≤ K → n ≤ a ^ K → L ≤ K := by
  obtain ⟨L, hL⟩ := sizeRequired_eq_some h
  obtain ⟨h1, h2, h3⟩ := sizeRequired_sound hL
  exact ⟨L, hL, h1, h2, h3⟩

/-- C2 (witness): for alphabet size 2 and `max_count` 3 the computed length
is minimal; indeed it is 2, as `sizeRequired 2 3 = some 2` confirms. -/
theorem sizeRequired_minimal_witness :
    sizeRequired 2 3 = some 2 ∧
      (∃ L, sizeRequired 2 3 = some L ∧ 1 ≤ L ∧ 3 ≤ 2 ^ L ∧
        ∀ K, 1 ≤ K → 3 ≤ 2 ^ K → L ≤ K) :=
  ⟨by decide, sizeRequired_minimal 2 3 (Or.inl (by decide))⟩

/-! ### The scan-and-overwrite loop -/

theorem foldl_keep_last_unused (used : List (List Char)) :
    ∀ (l : List (List Char)) (init : List Char),
      l.foldl (fun ret folded => if folded ∈ used then ret else folded) init =
        ((l.filter fun x => decide (x ∉ used)).getLast?).getD init := by
  intro l
  induction l using List.reverseRecOn with
  | nil => intro init; rfl
  | append_singleton t x ih =>
    intro init
    rw [List.foldl_append, List.filter_append]
    by_cases hx : x ∈ used
    · have hfil : (List.filter (fun x => decide (x ∉ used)) [x]) = [] := by simp [hx]
      rw [hfil, List.append_nil]
      simp only [List.foldl_cons, List.foldl_nil]
      rw [if_pos hx]
      exact ih init
    · have hfil : (List.filter (fun x => decide (x ∉ used)) [x]) = [x] := by simp [hx]
      rw [hfil, List.getLast?_concat]
      simp only [List.foldl_cons, List.foldl_nil]
      rw [if_neg hx]
      rfl

theorem getNextHint_eq (used : List (List Char)) (c : Char) (rest : List Char)
    (n L : Nat) (hL : sizeRequired (c :: rest).length n = some L) :
    getNextHint used (c :: rest) n = HintOutcome.value
      ((((multiCartesianProduct (List.replicate L (c :: rest).reverse)).filter
        fun x => decide (x ∉ used)).getLast?).getD [c]) := by
  unfold getNextHint
  rw [hL]
  simp only [List.head?_cons]
  rw [foldl_keep_last_unused]

theorem exists_not_mem_of_length_lt {α : Type} [DecidableEq α] {combos used : List α}
    (hnd : combos.Nodup) (hlen : used.length < combos.length) :
    ∃ x ∈ combos, x ∉ used := by
  by_contra h
  push_neg at h
  exact Nat.not_le_of_lt hlen
    (List.Subperm.length_le (List.subperm_of_subset hnd (fun x hx => h x hx)))

theorem getNextHint_step (used : List (List Char)) (c : Char) (rest : List Char)
    (n L : Nat) (hnd : (c :: rest).Nodup)
    (hL : sizeRequired (c :: rest).length n = some L)
    (hlen : used.length < (c :: rest).length ^ L) :
    ∃ s, getNextHint used (c :: rest) n = HintOutcome.value s ∧
      s ∈ multiCartesianProduct (List.replicate L (c :: rest).reverse) ∧ s ∉ used := by
  have hndc : (multiCartesianProduct (List.replicate L (c :: rest).reverse)).Nodup :=
    nodup_multiCartesianProduct_replicate (List.nodup_reverse.mpr hnd) L
  have hlc : (multiCartesianProduct (List.replicate L (c :: rest).reverse)).length =
      (c :: rest).length ^ L := by
    rw [length_multiCartesianProduct_replicate, List.length_reverse]
  have hlt : used.length <
      (multiCartesianProduct (List.replicate L (c :: rest).reverse)).length := by
    rw [hlc]; exact hlen
  obtain ⟨x, hxc, hxu⟩ := exists_not_mem_of_length_lt hndc hlt
  have hfilter : (multiCartesianProduct (List.replicate L (c :: rest).reverse)).filter
      (fun x => decide (x ∉ used)) ≠ [] := by
    intro h0
    rw [List.filter_eq_nil_iff] at h0
    exact h0 x hxc (by simpa using hxu)
  have hr := List.getLast?_eq_getLast _ hfilter
  have hrmem := List.getLast_mem hfilter
  rw [List.mem_filter] at hrmem
  refine ⟨_, ?_, hrmem.1, by simpa using hrmem.2⟩
  rw [getNextHint_eq used c rest n L hL, hr]
  rfl

/-! ### Claims about `get_next_hint` -/

/-- C3: `get_next_hint` enumerates all length-`L` candidate codes as the
`L`-fold cartesian product of the alphabet taken in reversed order, and, when
at least one candidate is not in the `used` set, returns the last candidate in
that enumeration order that is not in `used`. -/
theorem getNextHint_selects_last_unused (used : List (List Char)) (ch : List Char)
    (n L : Nat) (hne : ch ≠ []) (hL : sizeRequired ch.length n = some L)
    (hex : ∃ x ∈ multiCartesianProduct (List.replicate L ch.reverse), x ∉ used) :
    ∃ r, ((multiCartesianProduct (List.replicate L ch.reverse)).filter
        fun x => decide (x ∉ used)).getLast? = some r ∧
      getNextHint used ch n = HintOutcome.value r := by
  cases ch with
  | nil => exact absurd rfl hne
  | cons c rest =>
    obtain ⟨x, hxc, hxu⟩ := hex
    have hfilter : (multiCartesianProduct (List.replicate L (c :: rest).reverse)).filter
        (fun x => decide (x ∉ used)) ≠ [] := by
      intro h0
      rw [List.filter_eq_nil_iff] at h0
      exact h0 x hxc (by simpa using hxu)
    refine ⟨_, List.getLast?_eq_getLast _ hfilter, ?_⟩
    rw [getNextHint_eq used c rest n L hL, List.getLast?_eq_getLast _ hfilter]
    rfl

/-- C3 (witness): with alphabet "ab", `max_count` 3 and `used = {"aa"}` the
returned code is the last unused candidate of the reversed-order product. -/
theorem getNextHint_selects_last_unused_witness :
    ∃ r, ((multiCartesianProduct (List.replicate 2 (['a', 'b'] : List Char).reverse)).filter
        fun x => decide (x ∉ [['a', 'a']])).getLast? = some r ∧
      getNextHint [['a', 'a']] ['a', 'b'] 3 = HintOutcome.value r :=
  getNextHint_selects_last_unused [['a', 'a']] ['a', 'b'] 3 2 (by decide) (by decide)
    ⟨['b', 'b'], by decide, by decide⟩

/-- C4: when fewer than `|alphabet|^L` codes are used, `get_next_hint` returns
a code of length exactly `L` that is not in `used`; and when every length-`L`
combination is already used it returns the one-character fallback consisting
of the first alphabet character. The alphabet is a set, i.e. duplicate-free. -/
theorem getNextHint_postcondition (used : List (List Char)) (c : Char) (rest : List Char)
    (n L : Nat) (hnd : (c :: rest).Nodup)
    (hL : sizeRequired (c :: rest).length n = some L) :
    (used.length < (c :: rest).length ^ L →
      ∃ s, getNextHint used (c :: rest) n = HintOutcome.value s ∧
        s.length = L ∧ s ∉ used) ∧
    ((∀ x ∈ multiCartesianProduct (List.replicate L (c :: rest).reverse), x ∈ used) →
      getNextHint used (c :: rest) n = HintOutcome.value [c]) := by
  constructor
  · intro hlen
    obtain ⟨s, hs, hmem, hnotmem⟩ := getNextHint_step used c rest n L hnd hL hlen
    exact ⟨s, hs, (mem_multiCartesianProduct_replicate.mp hmem).1, hnotmem⟩
  · intro hall
    rw [getNextHint_eq used c rest n L hL]
    have hfil : (multiCartesianProduct (List.replicate L (c :: rest).reverse)).filter
        (fun x => decide (x ∉ used)) = [] := by
      rw [List.filter_eq_nil_iff]
      intro a ha
      simp only [decide_eq_true_eq]
      exact fun hcontra => hcontra (hall a ha)
    rw [hfil]
    rfl

/-- C4 (witness): alphabet "ab", `max_count` 3, `used = {"ab"}`: one call
returns a fresh code of length 2. -/
theorem getNextHint_postcondition_witness :
    ∃ s, getNextHint [['a', 'b']] ['a', 'b'] 3 = HintOutcome.value s ∧
      s.length = 2 ∧ s ∉ [['a', 'b']] :=
  (getNextHint_postcondition [['a', 'b']] 'a' ['b'] 3 2 (by decide) (by decide)).1 (by decide)

/-- C10: whenever the first alphabet character repeated `L` times is not in
`used` — in particular on the first call of a batch, when `used` is empty —
`get_next_hint` returns exactly that string, because it is the last element of
the reversed-order product enumeration. -/
theorem getNextHint_first_char_replicated (used : List (List Char)) (c : Char)
    (rest : List Char) (n L : Nat)
    (hL : sizeRequired (c :: rest).length n = some L)
    (hx : List.replicate L c ∉ used) :
    getNextHint used (c :: rest) n = HintOutcome.value (List.replicate L c) := by
  have hrev : (c :: rest).reverse ≠ [] := by simp
  have hlast0 : (c :: rest).reverse.getLast hrev = c := by
    have h1 : (c :: rest).reverse.getLast? = some c := by
      rw [List.getLast?_reverse]
      rfl
    rw [List.getLast?_eq_getLast _ hrev] at h1
    exact Option.some.inj h1
  have hlastc : (multiCartesianProduct (List.replicate L (c :: rest).reverse)).getLast? =
      some (List.replicate L c) := by
    rw [getLast?_multiCartesianProduct_replicate _ hrev L, hlast0]
  obtain ⟨pre, hpre⟩ := List.getLast?_eq_some_iff.mp hlastc
  rw [getNextHint_eq used c rest n L hL, hpre, List.filter_append]
  have hfil : List.filter (fun x => decide (x ∉ used)) [List.replicate L c] =
      [List.replicate L c] := by
    simp [hx]
  rw [hfil, List.getLast?_concat]
  rfl

/-- C10 (witness): alphabet "ab", `max_count` 3, `used = {"bb"}`: the call
returns "aa", the first alphabet character repeated `L = 2` times. -/
theorem getNextHint_first_char_replicated_witness :
    getNextHint [['b', 'b']] ['a', 'b'] 3 = HintOutcome.value (List.replicate 2 'a') :=
  getNextHint_first_char_replicated [['b', 'b']] 'a' ['b'] 3 2 (by decide) (by decide)

theorem runBatch_invariant (c : Char) (rest : List Char) (N L : Nat)
    (hnd : (c :: rest).Nodup) (hL : sizeRequired (c :: rest).length N = some L) :
    ∀ k, k ≤ N → ∃ u, runBatch (c :: rest) N k = some u ∧ u.length = k ∧ u.Nodup ∧
      ∀ s ∈ u, s ∈ multiCartesianProduct (List.replicate L (c :: rest).reverse) := by
  intro k
  induction k with
  | zero =>
    intro _
    exact ⟨[], rfl, rfl, List.nodup_nil, fun s hs => absurd hs (List.not_mem_nil s)⟩
  | succ m ih =>
    intro hm
    obtain ⟨u, hu, hulen, hund, husub⟩ := ih (Nat.le_of_succ_le hm)
    have hcap : N ≤ (c :: rest).length ^ L := (sizeRequired_sound hL).2.1
    have hlen : u.length < (c :: rest).length ^ L :=
      Nat.lt_of_lt_of_le (by omega) hcap
    obtain ⟨s, hs, hmem, hnot⟩ := getNextHint_step u c rest N L hnd hL hlen
    refine ⟨s :: u, ?_, by simp [hulen], List.nodup_cons.mpr ⟨hnot, hund⟩, ?_⟩
    · simp only [runBatch, hu, hs]
    · intro t ht
      rcases List.mem_cons.mp ht with rfl | ht2
      · exact hmem
      · exact husub t ht2

/-- C1: for a duplicate-free non-empty alphabet and any `max_count = N` whose
length loop terminates with length `L` (which entails `N ≤ |alphabet|^L`, the
capacity rule), starting from the empty `used` set and feeding each returned
code back before the next call yields `N` pairwise-distinct codes, each of
length exactly `L`. -/
theorem runBatch_batch_unique (c : Char) (rest : List Char) (N L : Nat)
    (hnd : (c :: rest).Nodup) (hL : sizeRequired (c :: rest).length N = some L) :
    ∃ u, runBatch (c :: rest) N N = some u ∧ u.length = N ∧ u.Nodup ∧
      ∀ s ∈ u, s.length = L := by
  obtain ⟨u, hu, h1, h2, h3⟩ := runBatch_invariant c rest N L hnd hL N (Nat.le_refl N)
  exact ⟨u, hu, h1, h2, fun s hs => (mem_multiCartesianProduct_replicate.mp (h3 s hs)).1⟩

/-- C1 (witness): alphabet "ab", `N = 3`: three sequential calls yield three
pairwise-distinct codes of length 2. -/
theorem runBatch_batch_unique_witness :
    ∃ u, runBatch ['a', 'b'] 3 3 = some u ∧ u.length = 3 ∧ u.Nodup ∧
      ∀ s ∈ u, s.length = 2 :=
  runBatch_batch_unique 'a' ['b'] 3 2 (by decide) (by decide)

/-- C6 (counterexample): with the empty alphabet and `max_count = 1` the
length loop of `get_next_hint` never terminates (`sizeRequired_empty_alphabet`
shows no fuel suffices), so the call diverges rather than reaching the
explicit `expect("No hint_chars found")` failure: no error is reported. -/
theorem getNextHint_empty_alphabet_cx :
    getNextHint [] [] 1 = HintOutcome.diverge ∧
      HintOutcome.diverge ≠ HintOutcome.panicked := by
  exact ⟨by decide, by decide⟩

/-- C6 (amended): for every `used` set and every `max_count ≥ 1`, calling
`get_next_hint` with an empty alphabet never returns a string value: the
length-determination loop diverges, so the explicit panic on line 221 of
src/utils.rs is never reached. -/
theorem getNextHint_empty_alphabet (used : List (List Char)) (n : Nat) (hn : 1 ≤ n) :
    getNextHint used [] n = HintOutcome.diverge := by
  unfold getNextHint
  rw [show ([] : List Char).length = 0 from rfl, sizeRequired_empty_alphabet hn]

/-- C6 (amended, witness): a concrete instance of the divergence. -/
theorem getNextHint_empty_alphabet_witness :
    getNextHint [['a']] [] 2 = HintOutcome.diverge :=
  getNextHint_empty_alphabet [['a']] 2 (by decide)

/-- C7 (counterexample): for the non-empty one-character alphabet "a" and
`max_count = 2` the first loop of `get_next_hint` never terminates
(`sizeRequired_unary_alphabet` shows no fuel suffices, since `1^s = 1 < 2`
for every `s`), refuting termination for every non-empty alphabet. -/
theorem getNextHint_unary_alphabet_cx :
    getNextHint [] ['a'] 2 = HintOutcome.diverge := by
  decide

/-- C7 (amended): `get_next_hint` terminates — and, being a pure function of
its inputs, is deterministic — whenever the alphabet has at least two
characters or `max_count ≤ |alphabet|`; in those cases it returns a string.
For a one-character alphabet with `max_count ≥ 2` the length loop diverges. -/
theorem getNextHint_terminates (used : List (List Char)) (ch : List Char) (n : Nat)
    (hne : ch ≠ []) (h : 2 ≤ ch.length ∨ n ≤ ch.length) :
    ∃ s, getNextHint used ch n = HintOutcome.value s := by
  obtain ⟨L, hL⟩ := sizeRequired_eq_some h
  cases ch with
  | nil => exact absurd rfl hne
  | cons c rest => exact ⟨_, getNextHint_eq used c rest n L hL⟩

/-- C7 (amended, witness): alphabet "ab" with `max_count = 3` terminates with
a value. -/
theorem getNextHint_terminates_witness :
    ∃ s, getNextHint [] ['a', 'b'] 3 = HintOutcome.value s :=
  getNextHint_terminates [] ['a', 'b'] 3 (by decide) (Or.inl (by decide))

end WmFocus
